import Mathlib

/-!
Verification of the persistent-PTY session manager of `ai-code-connect`
(`src/sdk-session.ts`).  Input chunks are modelled as lists of byte values
(`List Nat`); the stdin-forwarding / detach-detection pipeline of
`runInteractiveSession.onStdinData`, the history bookkeeping of
`sendToTool` / `performDetach`, and the registry logic of
`getOrCreateManager` are embedded as executable Lean functions, translated
line by line from the source.
-/

namespace AicSession

/-! ## Byte-level constants (sdk-session.ts lines 33-63) -/

/-- Escape byte 0x1B. -/
def ESC : Nat := 27

/-- DETACH_KEYS.CTRL_BRACKET = 0x1D. -/
def CTRL_BRACKET : Nat := 0x1d

/-- DETACH_KEYS.CTRL_BACKSLASH = 0x1C. -/
def CTRL_BACKSLASH : Nat := 0x1c

/-- DETACH_KEYS.CTRL_CARET = 0x1E. -/
def CTRL_CARET : Nat := 0x1e

/-- DETACH_KEYS.CTRL_UNDERSCORE = 0x1F. -/
def CTRL_UNDERSCORE : Nat := 0x1f

/-- FOCUS_IN_SEQ = "\x1b[I" (bytes 27, 91, 73). -/
def FOCUS_IN_SEQ : List Nat := [27, 91, 73]

/-- FOCUS_OUT_SEQ = "\x1b[O" (bytes 27, 91, 79). -/
def FOCUS_OUT_SEQ : List Nat := [27, 91, 79]

/-- CSI_U_DETACH_SEQS (sdk-session.ts lines 44-51): the six CSI-u detach
sequences "\x1b[93;5u", "\x1b[92;5u", "\x1b[54;5u", "\x1b[45;5u",
"\x1b[54;6u", "\x1b[45;6u" as byte lists. -/
def CSI_U_DETACH_SEQS : List (List Nat) :=
  [ [27, 91, 57, 51, 59, 53, 117],
    [27, 91, 57, 50, 59, 53, 117],
    [27, 91, 53, 52, 59, 53, 117],
    [27, 91, 52, 53, 59, 53, 117],
    [27, 91, 53, 52, 59, 54, 117],
    [27, 91, 52, 53, 59, 54, 117] ]

/-! ## The stripping pipeline (sdk-session.ts lines 1131-1145)

The source removes focus-report sequences with
`str.split(FOCUS_IN_SEQ).join('')` (and likewise FOCUS_OUT_SEQ) and then
applies three global regex replacements:
`/\x1b\[\?[\d;]*[uc]/g`, `/\x1b\[>[\d;]*c/g`, `/\x1b\[[\d;]*u/g`.
Both `String.split(sep).join('')` and a global regex replace with empty
replacement perform a single left-to-right scan over the string, removing
each leftmost non-overlapping match and continuing after it.  We embed both
with a generic scanner `stripGo` parameterised by a matcher that reports
whether (and how long) a match starts at the present position. -/

/-- A byte may appear in the `[\d;]*` run of a terminal-response regex:
an ASCII digit (48-57) or a semicolon (59). -/
def isRunChar (c : Nat) : Bool := (48 ≤ c && c ≤ 57) || c = 59

/-- Length of a terminal-response match after its introducer: the run of
digit/semicolon bytes followed by one byte from `finals`
(the `[\d;]*[uc]`-style part of the three regexes). -/
def respTail (finals : List Nat) (t : List Nat) : Option Nat :=
  match (t.drop (t.takeWhile isRunChar).length).head? with
  | some c => if c ∈ finals then some ((t.takeWhile isRunChar).length + 1) else none
  | none => none

/-- Matcher for the exact sequence FOCUS_IN_SEQ = "\x1b[I". -/
def matchFI : List Nat → Option Nat
  | 27 :: 91 :: c :: _ => if c = 73 then some 3 else none
  | _ => none

/-- Matcher for the exact sequence FOCUS_OUT_SEQ = "\x1b[O". -/
def matchFO : List Nat → Option Nat
  | 27 :: 91 :: c :: _ => if c = 79 then some 3 else none
  | _ => none

/-- Matcher for the regex `\x1b\[\?[\d;]*[uc]` (ESC[?...c or ESC[?...u). -/
def matchP1 : List Nat → Option Nat
  | 27 :: 91 :: c :: t => if c = 63 then (respTail [117, 99] t).map (· + 3) else none
  | _ => none

/-- Matcher for the regex `\x1b\[>[\d;]*c` (ESC[>...c). -/
def matchP2 : List Nat → Option Nat
  | 27 :: 91 :: c :: t => if c = 62 then (respTail [99] t).map (· + 3) else none
  | _ => none

/-- Matcher for the regex `\x1b\[[\d;]*u` (ESC[...u, CSI-u sequences). -/
def matchP3 : List Nat → Option Nat
  | 27 :: 91 :: t => (respTail [117] t).map (· + 2)
  | _ => none

/-- One left-to-right scan removing each leftmost non-overlapping match
reported by `m`, fuelled for structural recursion; fuel at least the list
length is always sufficient because every recursion step consumes at least
one byte.  This is the shared semantics of JS `split(sep).join('')` and of
a global regex replace with the empty string. -/
def stripGo (m : List Nat → Option Nat) : Nat → List Nat → List Nat
  | 0, s => s
  | _ + 1, [] => []
  | fuel + 1, c :: rest =>
    match m (c :: rest) with
    | some k =>
      if 1 ≤ k then stripGo m fuel ((c :: rest).drop k)
      else c :: stripGo m fuel rest
    | none => c :: stripGo m fuel rest

/-- One whole stripping pass over a chunk. -/
def stripScan (m : List Nat → Option Nat) (s : List Nat) : List Nat :=
  stripGo m s.length s

/-- Focus-sequence removal (sdk-session.ts line 1135):
`str.split(FOCUS_IN_SEQ).join('').split(FOCUS_OUT_SEQ).join('')`. -/
def stripFocusPair (s : List Nat) : List Nat :=
  stripScan matchFO (stripScan matchFI s)

/-- Terminal-response removal (sdk-session.ts lines 1140-1143): the three
chained regex replacements in source order. -/
def stripResponses (s : List Nat) : List Nat :=
  stripScan matchP3 (stripScan matchP2 (stripScan matchP1 s))

/-- The full filtering pipeline applied to `str` before classification
of the remaining bytes (sdk-session.ts lines 1135-1143). -/
def stripChunk (s : List Nat) : List Nat :=
  stripResponses (stripFocusPair s)

/-! ## Detach classification (sdk-session.ts lines 1147-1191) -/

/-- Substring test, as used by JS `String.includes`. -/
def containsSub (pat : List Nat) : List Nat → Bool
  | [] => pat.isPrefixOf []
  | c :: rest => pat.isPrefixOf (c :: rest) || containsSub pat (c :: rest).tail

/-- Whether a byte is one of the four traditional detach codes checked in
the loop at sdk-session.ts lines 1156-1165. -/
def isDetachByte (b : Nat) : Bool :=
  b = CTRL_BRACKET || b = CTRL_BACKSLASH || b = CTRL_CARET || b = CTRL_UNDERSCORE

/-- The double-escape scan of sdk-session.ts lines 1168-1175: two bytes
0x1B at adjacent positions of the raw chunk. -/
def hasAdjacentEsc : List Nat → Bool
  | a :: b :: rest => (a = 27 && b = 27) || hasAdjacentEsc (b :: rest)
  | _ => false

/-- Outcome of one `onStdinData` invocation: trigger the detach path,
forward the filtered bytes to the PTY, or silently drop the chunk. -/
inductive StdinAction
  | detach
  | forward (w : List Nat)
  | drop
deriving DecidableEq, Repr

/-- Result of one `onStdinData` invocation: the action taken and the new
value of the `lastEscapeTime` variable. -/
structure StdinResult where
  act : StdinAction
  lastEsc : Nat
deriving DecidableEq, Repr

/-- The `onStdinData` handler of `runInteractiveSession`
(sdk-session.ts lines 1123-1192), translated clause by clause:
exact focus-sequence chunks are ignored; the chunk is stripped of focus
and terminal-response sequences; an empty remainder is ignored; CSI-u
detach sequences are searched in the stripped string; the four detach
bytes and adjacent double escapes are searched in the raw chunk; a lone
escape byte detaches when the previous lone escape was seen less than
500 ms ago and is otherwise forwarded; everything else forwards the
stripped bytes. -/
def onStdinData (lastEscapeTime now : Nat) (data : List Nat) : StdinResult :=
  if data = FOCUS_IN_SEQ ∨ data = FOCUS_OUT_SEQ then ⟨.drop, lastEscapeTime⟩
  else
    let str := stripChunk data
    if str.length = 0 then ⟨.drop, lastEscapeTime⟩
    else if CSI_U_DETACH_SEQS.any (fun seq => containsSub seq str) then
      ⟨.detach, lastEscapeTime⟩
    else if data.any isDetachByte then ⟨.detach, lastEscapeTime⟩
    else if hasAdjacentEsc data then ⟨.detach, lastEscapeTime⟩
    else if data = [ESC] then
      if now - lastEscapeTime < 500 then ⟨.detach, lastEscapeTime⟩
      else ⟨.forward str, now⟩
    else ⟨.forward str, 0⟩

/-! ## The attached-session state

`performDetach` (sdk-session.ts lines 1082-1121) removes the stdin
listener, marks the manager detached and runs `cleanup`, which disables
focus reporting and bracketed paste, resets the keyboard-enhancement mode,
shows the cursor and leaves raw input mode.  We track the attached flag,
the raw-mode flag, the `lastEscapeTime` variable and the bytes written to
the subprocess's stdin. -/

structure InteractState where
  attached : Bool
  rawMode : Bool
  lastEsc : Nat
  written : List Nat
deriving DecidableEq, Repr

/-- One stdin event while a session is attached: run `onStdinData`; on a
detach trigger `performDetach` marks the session detached and `cleanup`
restores raw mode; on forward the filtered bytes are appended to the
subprocess input stream; otherwise the chunk is dropped. -/
def interactStep (st : InteractState) (now : Nat) (data : List Nat) : InteractState :=
  if st.attached then
    match onStdinData st.lastEsc now data with
    | ⟨.detach, e⟩ => { st with attached := false, rawMode := false, lastEsc := e }
    | ⟨.forward w, e⟩ => { st with written := st.written ++ w, lastEsc := e }
    | ⟨.drop, e⟩ => { st with lastEsc := e }
  else st

/-! ## Characterisation of the five matchers -/

/-- Bytes that can occur anywhere inside a removed match of any of the
five stripping passes: ESC, the bracket, the introducer bytes, the letters
I / O / u / c and the digit/semicolon run bytes. -/
def allowedByte (c : Nat) : Bool :=
  c = 27 || c = 91 || c = 73 || c = 79 || c = 63 || c = 62 ||
    c = 117 || c = 99 || isRunChar c

theorem respTail_eq_some {finals t : List Nat} {j : Nat}
    (h : respTail finals t = some j) :
    ∃ c, j = (t.takeWhile isRunChar).length + 1 ∧
      (t.drop (t.takeWhile isRunChar).length).head? = some c ∧ c ∈ finals := by
  unfold respTail at h
  split at h
  case _ c heq =>
    split at h
    case isTrue hc =>
      refine ⟨c, ?_, heq, hc⟩
      simpa using h.symm
    case isFalse => exact absurd h (by simp)
  case _ => exact absurd h (by simp)

theorem take_takeWhile_length {p : Nat → Bool} :
    ∀ t : List Nat, t.take (t.takeWhile p).length = t.takeWhile p := by
  intro t
  induction t with
  | nil => rfl
  | cons a l ih =>
    cases h : p a with
    | true =>
      simp only [List.takeWhile_cons, h, if_true, List.length_cons, List.take]
      rw [ih]
    | false => simp [List.takeWhile_cons, h]

theorem respTail_take {finals t : List Nat} {j : Nat}
    (h : respTail finals t = some j) :
    ∀ c ∈ t.take j, isRunChar c = true ∨ c ∈ finals := by
  obtain ⟨c0, hj, hhead, hc0⟩ := respTail_eq_some h
  set r := (t.takeWhile isRunChar).length with hr
  intro c hc
  rw [hj, List.take_add] at hc
  rcases List.mem_append.mp hc with hleft | hright
  · left
    have hpre : t.take r = t.takeWhile isRunChar := take_takeWhile_length t
    rw [hpre] at hleft
    exact List.mem_takeWhile_imp hleft
  · right
    have : (t.drop r).take 1 = [c0] := by
      cases hd : t.drop r with
      | nil => rw [hd] at hhead; simp at hhead
      | cons a l => rw [hd] at hhead; simp at hhead; simp [hd, hhead]
    rw [this] at hright
    simp at hright
    exact hright ▸ hc0

theorem respTail_at_run (finals run : List Nat) (f : Nat) (x : List Nat)
    (hrun : ∀ c ∈ run, isRunChar c = true) (hf : isRunChar f = false)
    (hmem : f ∈ finals) :
    respTail finals (run ++ f :: x) = some (run.length + 1) := by
  have htw : (run ++ f :: x).takeWhile isRunChar = run := by
    induction run with
    | nil => simp [List.takeWhile, hf]
    | cons a l ih =>
      have ha : isRunChar a = true := hrun a (by simp)
      simp only [List.cons_append, List.takeWhile, ha]
      show a :: List.takeWhile isRunChar (l ++ f :: x) = a :: l
      rw [ih (fun c hc => hrun c (by simp [hc]))]
  unfold respTail
  rw [htw, List.drop_left]
  simp [hmem]

theorem matchFI_eq_some {s : List Nat} {k : Nat} (h : matchFI s = some k) :
    k = 3 ∧ ∃ rest, s = 27 :: 91 :: 73 :: rest := by
  unfold matchFI at h
  split at h
  case _ c rest =>
    split at h
    case isTrue hc => exact ⟨by simpa using h.symm, rest, by simp [hc]⟩
    case isFalse => exact absurd h (by simp)
  case _ => exact absurd h (by simp)

theorem matchFO_eq_some {s : List Nat} {k : Nat} (h : matchFO s = some k) :
    k = 3 ∧ ∃ rest, s = 27 :: 91 :: 79 :: rest := by
  unfold matchFO at h
  split at h
  case _ c rest =>
    split at h
    case isTrue hc => exact ⟨by simpa using h.symm, rest, by simp [hc]⟩
    case isFalse => exact absurd h (by simp)
  case _ => exact absurd h (by simp)

theorem matchP1_eq_some {s : List Nat} {k : Nat} (h : matchP1 s = some k) :
    ∃ t j, s = 27 :: 91 :: 63 :: t ∧ respTail [117, 99] t = some j ∧ k = j + 3 := by
  unfold matchP1 at h
  split at h
  case _ c t =>
    split at h
    case isTrue hc =>
      cases hr : respTail [117, 99] t with
      | none => rw [hr] at h; simp at h
      | some j =>
        rw [hr] at h
        simp only [Option.map_some'] at h
        exact ⟨t, j, by simp [hc], hr, by simpa using h.symm⟩
    case isFalse => exact absurd h (by simp)
  case _ => exact absurd h (by simp)

theorem matchP2_eq_some {s : List Nat} {k : Nat} (h : matchP2 s = some k) :
    ∃ t j, s = 27 :: 91 :: 62 :: t ∧ respTail [99] t = some j ∧ k = j + 3 := by
  unfold matchP2 at h
  split at h
  case _ c t =>
    split at h
    case isTrue hc =>
      cases hr : respTail [99] t with
      | none => rw [hr] at h; simp at h
      | some j =>
        rw [hr] at h
        simp only [Option.map_some'] at h
        exact ⟨t, j, by simp [hc], hr, by simpa using h.symm⟩
    case isFalse => exact absurd h (by simp)
  case _ => exact absurd h (by simp)

theorem matchP3_eq_some {s : List Nat} {k : Nat} (h : matchP3 s = some k) :
    ∃ t j, s = 27 :: 91 :: t ∧ respTail [117] t = some j ∧ k = j + 2 := by
  unfold matchP3 at h
  split at h
  case _ t =>
    cases hr : respTail [117] t with
    | none => rw [hr] at h; simp at h
    | some j =>
      rw [hr] at h
      simp only [Option.map_some'] at h
      exact ⟨t, j, rfl, hr, by simpa using h.symm⟩
  case _ => exact absurd h (by simp)

/-- Bundled facts about a stripping-pass matcher that the generic scan
lemmas rely on: a match is nonempty, starts with ESC, has no ESC after its
first byte, and consists of allowed bytes only. -/
structure MatcherOK (m : List Nat → Option Nat) : Prop where
  pos : ∀ s k, m s = some k → 1 ≤ k
  start : ∀ s k, m s = some k → s.head? = some 27
  interior : ∀ s k, m s = some k → ∀ c ∈ (s.take k).tail, c ≠ 27
  chars : ∀ s k, m s = some k → ∀ c ∈ s.take k, allowedByte c = true

theorem isRunChar_ne_esc {c : Nat} (h : isRunChar c = true) : c ≠ 27 := by
  simp [isRunChar] at h
  omega

theorem matcherOK_FI : MatcherOK matchFI := by
  constructor <;> intro s k h <;> obtain ⟨hk, rest, hs⟩ := matchFI_eq_some h <;>
    subst hk hs
  · omega
  · rfl
  · intro c hc
    simp [List.take] at hc
    rcases hc with h1 | h1 <;> omega
  · intro c hc
    simp [List.take] at hc
    rcases hc with h1 | h1 | h1 <;> simp [allowedByte, h1]

theorem matcherOK_FO : MatcherOK matchFO := by
  constructor <;> intro s k h <;> obtain ⟨hk, rest, hs⟩ := matchFO_eq_some h <;>
    subst hk hs
  · omega
  · rfl
  · intro c hc
    simp [List.take] at hc
    rcases hc with h1 | h1 <;> omega
  · intro c hc
    simp [List.take] at hc
    rcases hc with h1 | h1 | h1 <;> simp [allowedByte, h1]

theorem matcherOK_P1 : MatcherOK matchP1 := by
  constructor <;> intro s k h <;> obtain ⟨t, j, hs, hr, hk⟩ := matchP1_eq_some h <;>
    subst hk hs
  · omega
  · rfl
  · intro c hc
    simp only [List.take, List.tail_cons] at hc
    simp at hc
    rcases hc with h1 | h1 | h1
    · omega
    · omega
    · rcases respTail_take hr c h1 with h2 | h2
      · exact isRunChar_ne_esc h2
      · simp at h2; omega
  · intro c hc
    simp only [List.take] at hc
    simp at hc
    rcases hc with h1 | h1 | h1 | h1
    · simp [allowedByte, h1]
    · simp [allowedByte, h1]
    · simp [allowedByte, h1]
    · rcases respTail_take hr c h1 with h2 | h2
      · simp [allowedByte, h2]
      · simp at h2; rcases h2 with h2 | h2 <;> simp [allowedByte, h2]

theorem matcherOK_P2 : MatcherOK matchP2 := by
  constructor <;> intro s k h <;> obtain ⟨t, j, hs, hr, hk⟩ := matchP2_eq_some h <;>
    subst hk hs
  · omega
  · rfl
  · intro c hc
    simp only [List.take, List.tail_cons] at hc
    simp at hc
    rcases hc with h1 | h1 | h1
    · omega
    · omega
    · rcases respTail_take hr c h1 with h2 | h2
      · exact isRunChar_ne_esc h2
      · simp at h2; omega
  · intro c hc
    simp only [List.take] at hc
    simp at hc
    rcases hc with h1 | h1 | h1 | h1
    · simp [allowedByte, h1]
    · simp [allowedByte, h1]
    · simp [allowedByte, h1]
    · rcases respTail_take hr c h1 with h2 | h2
      · simp [allowedByte, h2]
      · simp at h2; simp [allowedByte, h2]

theorem matcherOK_P3 : MatcherOK matchP3 := by
  constructor <;> intro s k h <;> obtain ⟨t, j, hs, hr, hk⟩ := matchP3_eq_some h <;>
    subst hk hs
  · omega
  · rfl
  · intro c hc
    simp only [List.take, List.tail_cons] at hc
    simp at hc
    rcases hc with h1 | h1
    · omega
    · rcases respTail_take hr c h1 with h2 | h2
      · exact isRunChar_ne_esc h2
      · simp at h2; omega
  · intro c hc
    simp only [List.take] at hc
    simp at hc
    rcases hc with h1 | h1 | h1
    · simp [allowedByte, h1]
    · simp [allowedByte, h1]
    · rcases respTail_take hr c h1 with h2 | h2
      · simp [allowedByte, h2]
      · simp at h2; simp [allowedByte, h2]

/-! ## Generic facts about the stripping scan -/

/-- A byte that can never occur inside a removed match survives every
stripping pass. -/
theorem stripGo_mem {m : List Nat → Option Nat} (hm : MatcherOK m)
    {b : Nat} (hb : allowedByte b = false) :
    ∀ fuel s, b ∈ s → b ∈ stripGo m fuel s := by
  intro fuel
  induction fuel with
  | zero => intro s hbs; simpa [stripGo]
  | succ f ih =>
    intro s hbs
    match s with
    | [] => simp at hbs
    | c :: rest =>
      simp only [stripGo]
      cases hmc : m (c :: rest) with
      | none =>
        rcases List.mem_cons.mp hbs with hbc | hbr
        · exact hbc ▸ List.mem_cons_self _ _
        · exact List.mem_cons_of_mem _ (ih rest hbr)
      | some k =>
        have hk : 1 ≤ k := hm.pos _ _ hmc
        simp only [if_pos hk]
        apply ih
        have hsplit := List.take_append_drop k (c :: rest)
        rw [← hsplit] at hbs
        rcases List.mem_append.mp hbs with htake | hdrop
        · have := hm.chars _ _ hmc b htake
          rw [this] at hb
          simp at hb
        · exact hdrop

theorem stripScan_mem {m : List Nat → Option Nat} (hm : MatcherOK m)
    {b : Nat} (hb : allowedByte b = false) {s : List Nat} (hbs : b ∈ s) :
    b ∈ stripScan m s :=
  stripGo_mem hm hb s.length s hbs

/-- A byte outside the allowed set of the five stripping passes survives
the whole filtering pipeline. -/
theorem stripChunk_mem {b : Nat} (hb : allowedByte b = false)
    {s : List Nat} (hbs : b ∈ s) : b ∈ stripChunk s := by
  unfold stripChunk stripResponses stripFocusPair
  exact stripScan_mem matcherOK_P3 hb
    (stripScan_mem matcherOK_P2 hb
      (stripScan_mem matcherOK_P1 hb
        (stripScan_mem matcherOK_FO hb
          (stripScan_mem matcherOK_FI hb hbs))))

/-! ## C1: raw detach bytes always detach -/

theorem isDetachByte_not_allowed {b : Nat} (hb : isDetachByte b = true) :
    allowedByte b = false := by
  have hcases : b = 28 ∨ b = 29 ∨ b = 30 ∨ b = 31 := by
    simp [isDetachByte, CTRL_BRACKET, CTRL_BACKSLASH, CTRL_CARET,
      CTRL_UNDERSCORE] at hb
    omega
  rcases hcases with h | h | h | h <;> subst h <;> rfl

theorem onStdinData_detach_of_detachByte (le now : Nat) {data : List Nat}
    {b : Nat} (hb : isDetachByte b = true) (hmem : b ∈ data) :
    onStdinData le now data = ⟨.detach, le⟩ := by
  have hball : allowedByte b = false := isDetachByte_not_allowed hb
  have hfi : ¬(data = FOCUS_IN_SEQ ∨ data = FOCUS_OUT_SEQ) := by
    rintro (rfl | rfl) <;>
      · simp [FOCUS_IN_SEQ, FOCUS_OUT_SEQ] at hmem
        rcases hmem with h | h | h <;> subst h <;> simp [isDetachByte,
          CTRL_BRACKET, CTRL_BACKSLASH, CTRL_CARET, CTRL_UNDERSCORE] at hb
  have hne : b ∈ stripChunk data := stripChunk_mem hball hmem
  have hlen : ¬(stripChunk data).length = 0 := by
    intro h0
    rw [List.length_eq_zero] at h0
    rw [h0] at hne
    simp at hne
  have hany : data.any isDetachByte = true := List.any_eq_true.mpr ⟨b, hmem, hb⟩
  unfold onStdinData
  rw [if_neg hfi]
  simp only [hlen, if_false]
  cases hcsi : CSI_U_DETACH_SEQS.any (fun seq => containsSub seq (stripChunk data)) with
  | true => simp [hcsi]
  | false => simp [hcsi, hany]

/-- C1: while a session is attached, any raw input chunk containing one of
the bytes 0x1D, 0x1C, 0x1E, 0x1F anywhere performs the detach — the
session leaves the attached state and raw mode is restored — and no byte
of the chunk is forwarded to the subprocess's input stream. -/
theorem c1_detach_bytes_always_detach (st : InteractState) (now : Nat)
    (data : List Nat) (hatt : st.attached = true)
    (b : Nat) (hb : isDetachByte b = true) (hmem : b ∈ data) :
    (interactStep st now data).attached = false ∧
      (interactStep st now data).rawMode = false ∧
      (interactStep st now data).written = st.written := by
  have hdet := onStdinData_detach_of_detachByte st.lastEsc now hb hmem
  unfold interactStep
  rw [hatt, if_pos rfl, hdet]
  exact ⟨rfl, rfl, rfl⟩

/-- Witness for C1: the single-byte chunk 0x1D detaches the attached
session, restores raw mode and forwards nothing. -/
theorem c1_detach_bytes_always_detach_witness :
    (interactStep ⟨true, true, 0, []⟩ 0 [29]).attached = false ∧
      (interactStep ⟨true, true, 0, []⟩ 0 [29]).rawMode = false ∧
      (interactStep ⟨true, true, 0, []⟩ 0 [29]).written = [] :=
  c1_detach_bytes_always_detach ⟨true, true, 0, []⟩ 0 [29] rfl 29 (by decide)
    (by decide)

/-! ## C2: the CSI-u detach sequences are swallowed by the response filter

The claim says a chunk containing one of CSI_U_DETACH_SEQS triggers the
detach.  In the source, the replacement `/\x1b\[[\d;]*u/g` at line 1143
removes every CSI-u sequence — including the six detach sequences — from
`str` before the CSI-u detach check at lines 1148-1153 runs, so a chunk
that consists of exactly one detach sequence is stripped to the empty
string and dropped at line 1145 without detaching. -/

/-- C2: evaluating the handler on the chunk "\x1b[93;5u" (the first entry
of CSI_U_DETACH_SEQS, Ctrl+]): the chunk is classified as droppable
terminal noise, the session stays attached and nothing is forwarded —
the detach demanded by the claim does not happen. -/
theorem c2_csi_u_detach_seq_dropped :
    onStdinData 0 0 [27, 91, 57, 51, 59, 53, 117] = ⟨.drop, 0⟩ ∧
      (interactStep ⟨true, true, 0, []⟩ 0 [27, 91, 57, 51, 59, 53, 117]).attached
        = true := by
  constructor <;> decide

/-! ## Position-based facts about the stripping scan

For C3 we show that every occurrence of a focus sequence or of a
terminal-response match inside a chunk is wholly removed by the pipeline:
the forwarded bytes form a sublist of the chunk with the occurrence
deleted.  The proof tracks one occurrence through the five passes:
a pass whose matcher cannot fire at the occurrence leaves it intact
(`stripGo_preserves`), the pass whose matcher fires at it removes it
(`stripGo_removes`), and later passes only delete further bytes
(`stripGo_sublist`). -/

theorem mem_take_of_getElem {c : Nat} :
    ∀ (l : List Nat) (i k : Nat), i < k → l[i]? = some c → c ∈ l.take k := by
  intro l
  induction l with
  | nil => intro i k _ h; simp at h
  | cons x xs ih =>
    intro i k hik h
    cases i with
    | zero =>
      simp at h
      cases k with
      | zero => omega
      | succ k2 => simp [List.take, h]
    | succ i2 =>
      cases k with
      | zero => omega
      | succ k2 =>
        simp at h
        simp only [List.take, List.mem_cons]
        exact Or.inr (ih i2 k2 (by omega) h)

theorem mem_tail_take_of_getElem (s : List Nat) (i k c : Nat)
    (h1 : 1 ≤ i) (h2 : i < k) (h : s[i]? = some c) : c ∈ (s.take k).tail := by
  cases s with
  | nil => simp at h
  | cons x xs =>
    cases i with
    | zero => omega
    | succ i2 =>
      cases k with
      | zero => omega
      | succ k2 =>
        simp at h
        simp only [List.take, List.tail_cons]
        exact mem_take_of_getElem xs i2 k2 (by omega) h

theorem drop_append_of_le {α : Type} (a b : List α) {k : Nat} (hk : k ≤ a.length) :
    (a ++ b).drop k = a.drop k ++ b := by
  rw [List.drop_append_eq_append_drop]
  simp [Nat.sub_eq_zero_of_le hk]

theorem stripGo_sublist (m : List Nat → Option Nat) :
    ∀ fuel s, List.Sublist (stripGo m fuel s) s := by
  intro fuel
  induction fuel with
  | zero => intro s; exact List.Sublist.refl s
  | succ f ih =>
    intro s
    match s with
    | [] => exact List.Sublist.refl []
    | c :: rest =>
      simp only [stripGo]
      cases hmc : m (c :: rest) with
      | none => exact (ih rest).cons₂ c
      | some k =>
        show List.Sublist
          (if 1 ≤ k then stripGo m f ((c :: rest).drop k) else c :: stripGo m f rest)
          (c :: rest)
        by_cases hk : 1 ≤ k
        · rw [if_pos hk]
          exact (ih _).trans (List.drop_sublist _ _)
        · rw [if_neg hk]
          exact (ih rest).cons₂ c

theorem stripGo_fuel (m : List Nat → Option Nat) :
    ∀ f1 f2 s, s.length ≤ f1 → s.length ≤ f2 → stripGo m f1 s = stripGo m f2 s := by
  intro f1
  induction f1 with
  | zero =>
    intro f2 s h1 _
    have hnil : s = [] := List.length_eq_zero.mp (by omega)
    subst hnil
    cases f2 <;> rfl
  | succ f ih =>
    intro f2 s h1 h2
    cases s with
    | nil => cases f2 <;> rfl
    | cons c rest =>
      cases f2 with
      | zero => simp at h2
      | succ g =>
        simp only [stripGo]
        cases hmc : m (c :: rest) with
        | none =>
          rw [ih g rest (by simp at h1; omega) (by simp at h2; omega)]
        | some k =>
          show (if 1 ≤ k then stripGo m f ((c :: rest).drop k) else c :: stripGo m f rest)
            = (if 1 ≤ k then stripGo m g ((c :: rest).drop k) else c :: stripGo m g rest)
          by_cases hk : 1 ≤ k
          · rw [if_pos hk, if_pos hk]
            refine ih g _ ?_ ?_ <;>
            · simp only [List.length_drop]
              simp at h1 h2 ⊢
              omega
          · rw [if_neg hk, if_neg hk]
            rw [ih g rest (by simp at h1; omega) (by simp at h2; omega)]

theorem stripScan_sublist (m : List Nat → Option Nat) (s : List Nat) :
    List.Sublist (stripScan m s) s :=
  stripGo_sublist m s.length s

/-- A scan pass removes a pattern occurrence placed between two contexts:
the result is a sublist of the contexts alone.  `hocc` states that the
matcher fires at the occurrence with exactly its length, as is the case
for all five matchers at their own patterns. -/
theorem stripGo_removes {m : List Nat → Option Nat} (hm : MatcherOK m)
    {occ : List Nat} (hocc : ∀ x, m (occ ++ x) = some occ.length)
    (hoccE : occ.head? = some 27) :
    ∀ fuel a b, (a ++ (occ ++ b)).length ≤ fuel →
      List.Sublist (stripGo m fuel (a ++ (occ ++ b))) (a ++ b) := by
  obtain ⟨ot, rfl⟩ : ∃ ot, occ = 27 :: ot := by
    cases occ with
    | nil => simp at hoccE
    | cons h t =>
      simp at hoccE
      exact ⟨t, by rw [hoccE]⟩
  intro fuel
  induction fuel with
  | zero =>
    intro a b hlen
    simp at hlen
  | succ f ih =>
    intro a b hlen
    cases a with
    | nil =>
      have hs : ([] : List Nat) ++ ((27 :: ot) ++ b) = 27 :: (ot ++ b) := by simp
      rw [hs]
      have hmc : m (27 :: (ot ++ b)) = some (ot.length + 1) := by
        have h0 := hocc b
        simpa using h0
      simp only [stripGo, hmc]
      rw [if_pos (by omega)]
      have hdrop : (27 :: (ot ++ b)).drop (ot.length + 1) = b := by
        rw [List.drop_succ_cons, List.drop_left]
      rw [hdrop]
      simpa using stripGo_sublist m f b
    | cons c a2 =>
      have hs : (c :: a2) ++ ((27 :: ot) ++ b) = c :: (a2 ++ ((27 :: ot) ++ b)) := by
        simp
      rw [hs]
      simp only [stripGo]
      cases hmc : m (c :: (a2 ++ ((27 :: ot) ++ b))) with
      | none =>
        have hrec := ih a2 b (by simp at hlen ⊢; omega)
        have : (c :: a2) ++ b = c :: (a2 ++ b) := by simp
        rw [this]
        exact hrec.cons₂ c
      | some k =>
        have hk1 : 1 ≤ k := hm.pos _ _ hmc
        show List.Sublist
          (if 1 ≤ k then stripGo m f ((c :: (a2 ++ ((27 :: ot) ++ b))).drop k)
            else c :: stripGo m f (a2 ++ ((27 :: ot) ++ b)))
          ((c :: a2) ++ b)
        rw [if_pos hk1]
        have hkle : k ≤ a2.length + 1 := by
          by_contra hgt
          push_neg at hgt
          have hidx : (c :: (a2 ++ ((27 :: ot) ++ b)))[a2.length + 1]? = some 27 := by
            rw [List.getElem?_cons_succ]
            rw [List.getElem?_append_right (le_refl a2.length)]
            simp
          have hmem := mem_tail_take_of_getElem
            (c :: (a2 ++ ((27 :: ot) ++ b))) (a2.length + 1) k 27
            (by omega) (by omega) hidx
          exact absurd rfl (hm.interior _ _ hmc 27 hmem)
        have hdrop : (c :: (a2 ++ ((27 :: ot) ++ b))).drop k
            = (c :: a2).drop k ++ ((27 :: ot) ++ b) := by
          have hr : c :: (a2 ++ ((27 :: ot) ++ b)) = (c :: a2) ++ ((27 :: ot) ++ b) := by
            simp
          rw [hr, drop_append_of_le _ _ (by simpa using hkle)]
        rw [hdrop]
        have hlen2 : ((c :: a2).drop k ++ ((27 :: ot) ++ b)).length ≤ f := by
          simp only [List.length_append, List.length_cons, List.length_drop] at hlen ⊢
          omega
        have hrec := ih ((c :: a2).drop k) b hlen2
        exact hrec.trans ((List.drop_sublist k (c :: a2)).append_right b)

/-- A run of non-ESC bytes passes unchanged through a scan pass whose
matcher only fires on ESC. -/
theorem stripGo_no_esc_run {m : List Nat → Option Nat} (hm : MatcherOK m) :
    ∀ (t : List Nat) (fuel : Nat) (b : List Nat), (∀ c ∈ t, c ≠ 27) →
      (t ++ b).length ≤ fuel → stripGo m fuel (t ++ b) = t ++ stripScan m b := by
  intro t
  induction t with
  | nil =>
    intro fuel b _ hlen
    simp only [List.nil_append]
    exact stripGo_fuel m fuel b.length b (by simpa using hlen) (le_refl _)
  | cons c t2 ih =>
    intro fuel b hne hlen
    cases fuel with
    | zero => simp at hlen
    | succ f =>
      have hcons : (c :: t2) ++ b = c :: (t2 ++ b) := by simp
      rw [hcons]
      simp only [stripGo]
      cases hmc : m (c :: (t2 ++ b)) with
      | some k =>
        have hhead := hm.start _ _ hmc
        simp at hhead
        exact absurd hhead (hne c (by simp))
      | none =>
        rw [ih f b (fun x hx => hne x (by simp [hx])) (by simp at hlen ⊢; omega)]
        simp

/-- A scan pass whose matcher never fires at the occurrence (nor inside
it, since a match starts with ESC) keeps the occurrence intact and
contiguous, deleting bytes only in the surrounding contexts. -/
theorem stripGo_preserves {m : List Nat → Option Nat} (hm : MatcherOK m)
    {occ : List Nat} (hnone : ∀ x, m (occ ++ x) = none)
    (hoccE : occ.head? = some 27) (hoccT : ∀ c ∈ occ.tail, c ≠ 27) :
    ∀ fuel a b, (a ++ (occ ++ b)).length ≤ fuel →
      ∃ a2, List.Sublist a2 a ∧
        stripGo m fuel (a ++ (occ ++ b)) = a2 ++ (occ ++ stripScan m b) := by
  obtain ⟨ot, rfl⟩ : ∃ ot, occ = 27 :: ot := by
    cases occ with
    | nil => simp at hoccE
    | cons h t =>
      simp at hoccE
      exact ⟨t, by rw [hoccE]⟩
  have hotne : ∀ c ∈ ot, c ≠ 27 := fun c hc => hoccT c (by simpa using hc)
  intro fuel
  induction fuel with
  | zero =>
    intro a b hlen
    simp at hlen
  | succ f ih =>
    intro a b hlen
    cases a with
    | nil =>
      refine ⟨[], List.nil_sublist [], ?_⟩
      have hs : ([] : List Nat) ++ ((27 :: ot) ++ b) = 27 :: (ot ++ b) := by simp
      rw [hs]
      have hmc : m (27 :: (ot ++ b)) = none := by
        have h0 := hnone b
        simpa using h0
      simp only [stripGo, hmc]
      rw [stripGo_no_esc_run hm ot f b hotne (by simp at hlen ⊢; omega)]
      simp
    | cons c a2 =>
      have hs : (c :: a2) ++ ((27 :: ot) ++ b) = c :: (a2 ++ ((27 :: ot) ++ b)) := by
        simp
      rw [hs]
      simp only [stripGo]
      cases hmc : m (c :: (a2 ++ ((27 :: ot) ++ b))) with
      | none =>
        obtain ⟨a3, hsub, heq⟩ := ih a2 b (by simp at hlen ⊢; omega)
        refine ⟨c :: a3, hsub.cons₂ c, ?_⟩
        rw [heq]
        simp
      | some k =>
        have hk1 : 1 ≤ k := hm.pos _ _ hmc
        have hkle : k ≤ a2.length + 1 := by
          by_contra hgt
          push_neg at hgt
          have hidx : (c :: (a2 ++ ((27 :: ot) ++ b)))[a2.length + 1]? = some 27 := by
            rw [List.getElem?_cons_succ]
            rw [List.getElem?_append_right (le_refl a2.length)]
            simp
          have hmem := mem_tail_take_of_getElem
            (c :: (a2 ++ ((27 :: ot) ++ b))) (a2.length + 1) k 27
            (by omega) (by omega) hidx
          exact absurd rfl (hm.interior _ _ hmc 27 hmem)
        show ∃ a3, List.Sublist a3 (c :: a2) ∧
          (if 1 ≤ k then stripGo m f ((c :: (a2 ++ ((27 :: ot) ++ b))).drop k)
            else c :: stripGo m f (a2 ++ ((27 :: ot) ++ b)))
            = a3 ++ ((27 :: ot) ++ stripScan m b)
        rw [if_pos hk1]
        have hdrop : (c :: (a2 ++ ((27 :: ot) ++ b))).drop k
            = (c :: a2).drop k ++ ((27 :: ot) ++ b) := by
          have hr : c :: (a2 ++ ((27 :: ot) ++ b)) = (c :: a2) ++ ((27 :: ot) ++ b) := by
            simp
          rw [hr, drop_append_of_le _ _ (by simpa using hkle)]
        rw [hdrop]
        have hlen2 : ((c :: a2).drop k ++ ((27 :: ot) ++ b)).length ≤ f := by
          simp only [List.length_append, List.length_cons, List.length_drop] at hlen ⊢
          omega
        obtain ⟨a3, hsub, heq⟩ := ih ((c :: a2).drop k) b hlen2
        exact ⟨a3, hsub.trans (List.drop_sublist k (c :: a2)), heq⟩

theorem stripScan_removes {m : List Nat → Option Nat} (hm : MatcherOK m)
    (occ : List Nat) (hocc : ∀ x, m (occ ++ x) = some occ.length)
    (hoccE : occ.head? = some 27) (a b : List Nat) :
    List.Sublist (stripScan m (a ++ (occ ++ b))) (a ++ b) :=
  stripGo_removes hm hocc hoccE _ a b (le_refl _)

theorem stripScan_preserves {m : List Nat → Option Nat} (hm : MatcherOK m)
    (occ : List Nat) (hnone : ∀ x, m (occ ++ x) = none)
    (hoccE : occ.head? = some 27) (hoccT : ∀ c ∈ occ.tail, c ≠ 27) (a b : List Nat) :
    ∃ a2, List.Sublist a2 a ∧
      stripScan m (a ++ (occ ++ b)) = a2 ++ (occ ++ stripScan m b) :=
  stripGo_preserves hm hnone hoccE hoccT _ a b (le_refl _)

/-! ## The recognised sequences and their interaction with each pass -/

/-- The terminal sequences the filtering pipeline recognises: the focus
reports and the shapes of the three terminal-response regexes
(`ESC[?...u`/`ESC[?...c`, `ESC[>...c`, `ESC[...u`). -/
inductive RecognizedSeq : List Nat → Prop
  | focusIn : RecognizedSeq FOCUS_IN_SEQ
  | focusOut : RecognizedSeq FOCUS_OUT_SEQ
  | p1 (run : List Nat) (f : Nat) (hrun : ∀ c ∈ run, isRunChar c = true)
      (hf : f = 117 ∨ f = 99) : RecognizedSeq (27 :: 91 :: 63 :: (run ++ [f]))
  | p2 (run : List Nat) (hrun : ∀ c ∈ run, isRunChar c = true) :
      RecognizedSeq (27 :: 91 :: 62 :: (run ++ [99]))
  | p3 (run : List Nat) (hrun : ∀ c ∈ run, isRunChar c = true) :
      RecognizedSeq (27 :: 91 :: (run ++ [117]))

theorem matchP1_at (run : List Nat) (f : Nat) (x : List Nat)
    (hrun : ∀ c ∈ run, isRunChar c = true) (hf : f = 117 ∨ f = 99) :
    matchP1 ((27 :: 91 :: 63 :: (run ++ [f])) ++ x)
      = some (27 :: 91 :: 63 :: (run ++ [f])).length := by
  have hfr : isRunChar f = false := by rcases hf with h | h <;> subst h <;> rfl
  have hfm : f ∈ [117, 99] := by rcases hf with h | h <;> simp [h]
  have hshape : (27 :: 91 :: 63 :: (run ++ [f])) ++ x
      = 27 :: 91 :: 63 :: (run ++ (f :: x)) := by simp
  rw [hshape]
  show (if (63 : Nat) = 63 then (respTail [117, 99] (run ++ (f :: x))).map (· + 3)
    else none) = _
  rw [if_pos rfl, respTail_at_run [117, 99] run f x hrun hfr hfm]
  simp [List.length_append]

theorem matchP2_at (run : List Nat) (x : List Nat)
    (hrun : ∀ c ∈ run, isRunChar c = true) :
    matchP2 ((27 :: 91 :: 62 :: (run ++ [99])) ++ x)
      = some (27 :: 91 :: 62 :: (run ++ [99])).length := by
  have hshape : (27 :: 91 :: 62 :: (run ++ [99])) ++ x
      = 27 :: 91 :: 62 :: (run ++ (99 :: x)) := by simp
  rw [hshape]
  show (if (62 : Nat) = 62 then (respTail [99] (run ++ (99 :: x))).map (· + 3)
    else none) = _
  rw [if_pos rfl, respTail_at_run [99] run 99 x hrun (by decide) (by decide)]
  simp [List.length_append]

theorem matchP3_at (run : List Nat) (x : List Nat)
    (hrun : ∀ c ∈ run, isRunChar c = true) :
    matchP3 ((27 :: 91 :: (run ++ [117])) ++ x)
      = some (27 :: 91 :: (run ++ [117])).length := by
  have hshape : (27 :: 91 :: (run ++ [117])) ++ x
      = 27 :: 91 :: (run ++ (117 :: x)) := by simp
  rw [hshape]
  show (respTail [117] (run ++ (117 :: x))).map (· + 2) = _
  rw [respTail_at_run [117] run 117 x hrun (by decide) (by decide)]
  simp [List.length_append]

theorem matchFI_none_p3 (run : List Nat) (x : List Nat)
    (hrun : ∀ c ∈ run, isRunChar c = true) :
    matchFI ((27 :: 91 :: (run ++ [117])) ++ x) = none := by
  cases run with
  | nil => rfl
  | cons r rs =>
    have hr : isRunChar r = true := hrun r (by simp)
    have hne : r ≠ 73 := by
      intro h
      subst h
      simp [isRunChar] at hr
    show (if r = 73 then some 3 else none) = none
    rw [if_neg hne]

theorem matchFO_none_p3 (run : List Nat) (x : List Nat)
    (hrun : ∀ c ∈ run, isRunChar c = true) :
    matchFO ((27 :: 91 :: (run ++ [117])) ++ x) = none := by
  cases run with
  | nil => rfl
  | cons r rs =>
    have hr : isRunChar r = true := hrun r (by simp)
    have hne : r ≠ 79 := by
      intro h
      subst h
      simp [isRunChar] at hr
    show (if r = 79 then some 3 else none) = none
    rw [if_neg hne]

theorem matchP1_none_p3 (run : List Nat) (x : List Nat)
    (hrun : ∀ c ∈ run, isRunChar c = true) :
    matchP1 ((27 :: 91 :: (run ++ [117])) ++ x) = none := by
  cases run with
  | nil => rfl
  | cons r rs =>
    have hr : isRunChar r = true := hrun r (by simp)
    have hne : r ≠ 63 := by
      intro h
      subst h
      simp [isRunChar] at hr
    show (if r = 63 then (respTail [117, 99] ((rs ++ [117]) ++ x)).map (· + 3)
      else none) = none
    rw [if_neg hne]

theorem matchP2_none_p3 (run : List Nat) (x : List Nat)
    (hrun : ∀ c ∈ run, isRunChar c = true) :
    matchP2 ((27 :: 91 :: (run ++ [117])) ++ x) = none := by
  cases run with
  | nil => rfl
  | cons r rs =>
    have hr : isRunChar r = true := hrun r (by simp)
    have hne : r ≠ 62 := by
      intro h
      subst h
      simp [isRunChar] at hr
    show (if r = 62 then (respTail [99] ((rs ++ [117]) ++ x)).map (· + 3)
      else none) = none
    rw [if_neg hne]

/-- Every occurrence of a recognised sequence inside a chunk is wholly
removed by the filtering pipeline: the filtered chunk is a sublist of the
chunk with the occurrence deleted. -/
theorem stripChunk_removes {occ : List Nat} (hocc : RecognizedSeq occ)
    (a b : List Nat) :
    List.Sublist (stripChunk (a ++ (occ ++ b))) (a ++ b) := by
  cases hocc with
  | focusIn =>
    show List.Sublist (stripScan matchP3 (stripScan matchP2 (stripScan matchP1
      (stripScan matchFO (stripScan matchFI (a ++ (FOCUS_IN_SEQ ++ b))))))) (a ++ b)
    have h1 := stripScan_removes matcherOK_FI FOCUS_IN_SEQ (fun x => rfl) rfl a b
    exact (stripScan_sublist _ _).trans ((stripScan_sublist _ _).trans
      ((stripScan_sublist _ _).trans ((stripScan_sublist _ _).trans h1)))
  | focusOut =>
    show List.Sublist (stripScan matchP3 (stripScan matchP2 (stripScan matchP1
      (stripScan matchFO (stripScan matchFI (a ++ (FOCUS_OUT_SEQ ++ b))))))) (a ++ b)
    obtain ⟨a1, ha1, he1⟩ := stripScan_preserves matcherOK_FI FOCUS_OUT_SEQ
      (fun x => rfl) rfl (by decide) a b
    rw [he1]
    have h2 := stripScan_removes matcherOK_FO FOCUS_OUT_SEQ (fun x => rfl) rfl a1
      (stripScan matchFI b)
    exact (stripScan_sublist _ _).trans ((stripScan_sublist _ _).trans
      ((stripScan_sublist _ _).trans
        (h2.trans (ha1.append (stripScan_sublist matchFI b)))))
  | p1 run f hrun hf =>
    show List.Sublist (stripScan matchP3 (stripScan matchP2 (stripScan matchP1
      (stripScan matchFO (stripScan matchFI
        (a ++ ((27 :: 91 :: 63 :: (run ++ [f])) ++ b))))))) (a ++ b)
    have hT : ∀ c ∈ (27 :: 91 :: 63 :: (run ++ [f])).tail, c ≠ 27 := by
      intro c hc
      simp at hc
      rcases hc with h | h | h | h
      · omega
      · omega
      · exact isRunChar_ne_esc (hrun c h)
      · rcases hf with h2 | h2 <;> omega
    obtain ⟨a1, ha1, he1⟩ := stripScan_preserves matcherOK_FI
      (27 :: 91 :: 63 :: (run ++ [f])) (fun x => rfl) rfl hT a b
    rw [he1]
    obtain ⟨a2, ha2, he2⟩ := stripScan_preserves matcherOK_FO
      (27 :: 91 :: 63 :: (run ++ [f])) (fun x => rfl) rfl hT a1
      (stripScan matchFI b)
    rw [he2]
    have h3 := stripScan_removes matcherOK_P1 (27 :: 91 :: 63 :: (run ++ [f]))
      (fun x => matchP1_at run f x hrun hf) rfl a2
      (stripScan matchFO (stripScan matchFI b))
    exact (stripScan_sublist _ _).trans ((stripScan_sublist _ _).trans
      (h3.trans ((ha2.trans ha1).append
        ((stripScan_sublist _ _).trans (stripScan_sublist _ _)))))
  | p2 run hrun =>
    show List.Sublist (stripScan matchP3 (stripScan matchP2 (stripScan matchP1
      (stripScan matchFO (stripScan matchFI
        (a ++ ((27 :: 91 :: 62 :: (run ++ [99])) ++ b))))))) (a ++ b)
    have hT : ∀ c ∈ (27 :: 91 :: 62 :: (run ++ [99])).tail, c ≠ 27 := by
      intro c hc
      simp at hc
      rcases hc with h | h | h | h
      · omega
      · omega
      · exact isRunChar_ne_esc (hrun c h)
      · omega
    obtain ⟨a1, ha1, he1⟩ := stripScan_preserves matcherOK_FI
      (27 :: 91 :: 62 :: (run ++ [99])) (fun x => rfl) rfl hT a b
    rw [he1]
    obtain ⟨a2, ha2, he2⟩ := stripScan_preserves matcherOK_FO
      (27 :: 91 :: 62 :: (run ++ [99])) (fun x => rfl) rfl hT a1
      (stripScan matchFI b)
    rw [he2]
    obtain ⟨a3, ha3, he3⟩ := stripScan_preserves matcherOK_P1
      (27 :: 91 :: 62 :: (run ++ [99])) (fun x => rfl) rfl hT a2
      (stripScan matchFO (stripScan matchFI b))
    rw [he3]
    have h4 := stripScan_removes matcherOK_P2 (27 :: 91 :: 62 :: (run ++ [99]))
      (fun x => matchP2_at run x hrun) rfl a3
      (stripScan matchP1 (stripScan matchFO (stripScan matchFI b)))
    exact (stripScan_sublist _ _).trans (h4.trans
      (((ha3.trans ha2).trans ha1).append
        ((stripScan_sublist _ _).trans
          ((stripScan_sublist _ _).trans (stripScan_sublist _ _)))))
  | p3 run hrun =>
    show List.Sublist (stripScan matchP3 (stripScan matchP2 (stripScan matchP1
      (stripScan matchFO (stripScan matchFI
        (a ++ ((27 :: 91 :: (run ++ [117])) ++ b))))))) (a ++ b)
    have hT : ∀ c ∈ (27 :: 91 :: (run ++ [117])).tail, c ≠ 27 := by
      intro c hc
      simp at hc
      rcases hc with h | h | h
      · omega
      · exact isRunChar_ne_esc (hrun c h)
      · omega
    obtain ⟨a1, ha1, he1⟩ := stripScan_preserves matcherOK_FI
      (27 :: 91 :: (run ++ [117])) (fun x => matchFI_none_p3 run x hrun) rfl hT a b
    rw [he1]
    obtain ⟨a2, ha2, he2⟩ := stripScan_preserves matcherOK_FO
      (27 :: 91 :: (run ++ [117])) (fun x => matchFO_none_p3 run x hrun) rfl hT a1
      (stripScan matchFI b)
    rw [he2]
    obtain ⟨a3, ha3, he3⟩ := stripScan_preserves matcherOK_P1
      (27 :: 91 :: (run ++ [117])) (fun x => matchP1_none_p3 run x hrun) rfl hT a2
      (stripScan matchFO (stripScan matchFI b))
    rw [he3]
    obtain ⟨a4, ha4, he4⟩ := stripScan_preserves matcherOK_P2
      (27 :: 91 :: (run ++ [117])) (fun x => matchP2_none_p3 run x hrun) rfl hT a3
      (stripScan matchP1 (stripScan matchFO (stripScan matchFI b)))
    rw [he4]
    have h5 := stripScan_removes matcherOK_P3 (27 :: 91 :: (run ++ [117]))
      (fun x => matchP3_at run x hrun) rfl a4
      (stripScan matchP2 (stripScan matchP1 (stripScan matchFO (stripScan matchFI b))))
    exact h5.trans ((((ha4.trans ha3).trans ha2).trans ha1).append
      ((stripScan_sublist _ _).trans ((stripScan_sublist _ _).trans
        ((stripScan_sublist _ _).trans (stripScan_sublist _ _)))))

/-! ## C3: recognised sequences never reach the subprocess -/

theorem onStdinData_forward_inv {le now : Nat} {data w : List Nat} {e : Nat}
    (h : onStdinData le now data = ⟨.forward w, e⟩) : w = stripChunk data := by
  unfold onStdinData at h
  split_ifs at h <;> simp_all
  all_goals (split_ifs at h <;> simp_all)

theorem onStdinData_drop_of_empty {le now : Nat} {data : List Nat}
    (h : stripChunk data = []) : onStdinData le now data = ⟨.drop, le⟩ := by
  unfold onStdinData
  by_cases hf : data = FOCUS_IN_SEQ ∨ data = FOCUS_OUT_SEQ
  · rw [if_pos hf]
  · rw [if_neg hf]
    simp [h]

/-- C3: for every chunk processed while attached, any occurrence of a
focus report or of a terminal-response sequence (DA responses
`ESC[?...c` / `ESC[?...u`, `ESC[>...c`, CSI-u acknowledgements
`ESC[...u`) is removed before forwarding, so the bytes forwarded to the
subprocess are a sublist of the chunk with the occurrence deleted; and a
chunk that strips to empty is dropped: nothing is forwarded, no detach
classification happens and the session state is unchanged. -/
theorem c3_sequences_stripped_before_forwarding (st : InteractState) (now : Nat)
    (data a occ b : List Nat) (hocc : RecognizedSeq occ)
    (hdata : data = a ++ (occ ++ b)) :
    (∀ w e, onStdinData st.lastEsc now data = ⟨.forward w, e⟩ →
      List.Sublist w (a ++ b)) ∧
    (stripChunk data = [] →
      onStdinData st.lastEsc now data = ⟨.drop, st.lastEsc⟩ ∧
        interactStep st now data = st) := by
  constructor
  · intro w e hfw
    rw [onStdinData_forward_inv hfw, hdata]
    exact stripChunk_removes hocc a b
  · intro hempty
    refine ⟨onStdinData_drop_of_empty hempty, ?_⟩
    unfold interactStep
    by_cases hatt : st.attached
    · rw [if_pos hatt, onStdinData_drop_of_empty hempty]
    · rw [if_neg hatt]

/-- Witness for C3 at the spec's own example: the chunk "\x1b[?1;2c"
(a Device-Attributes response) strips to empty, nothing is forwarded and
the session state is untouched. -/
theorem c3_sequences_stripped_before_forwarding_witness :
    onStdinData 0 0 [27, 91, 63, 49, 59, 50, 99] = ⟨.drop, 0⟩ ∧
      interactStep ⟨true, true, 0, []⟩ 0 [27, 91, 63, 49, 59, 50, 99]
        = ⟨true, true, 0, []⟩ :=
  (c3_sequences_stripped_before_forwarding ⟨true, true, 0, []⟩ 0
    [27, 91, 63, 49, 59, 50, 99] [] (27 :: 91 :: 63 :: ([49, 59, 50] ++ [99])) []
    (RecognizedSeq.p1 [49, 59, 50] 99 (by decide) (Or.inr rfl))
    (by decide)).2 (by decide)

/-! ## C4: the double-escape and escape-timing detach rules

The claim that two adjacent 0x1B bytes in one chunk always detach fails:
the double-escape scan runs on the raw chunk, but only after the stripped
chunk has been found non-empty.  A chunk whose bytes are entirely consumed
by the focus-sequence stripping — e.g. "\x1b\x1b[I[O", where removing the
embedded "\x1b[I" re-joins the remaining bytes into "\x1b[O", which the
second pass removes — is dropped at the empty-chunk check and never
reaches the double-escape scan. -/

/-- Counterexample to C4 as stated: the chunk ESC ESC [ I [ O contains two
adjacent escape bytes, yet the handler classifies it as droppable noise:
the session stays attached and no detach happens. -/
theorem c4_adjacent_escape_counterexample :
    hasAdjacentEsc [27, 27, 91, 73, 91, 79] = true ∧
      onStdinData 0 1000 [27, 27, 91, 73, 91, 79] = ⟨.drop, 0⟩ ∧
      interactStep ⟨true, true, 0, []⟩ 1000 [27, 27, 91, 73, 91, 79]
        = ⟨true, true, 0, []⟩ := by
  refine ⟨?_, ?_, ?_⟩ <;> decide

theorem onStdinData_detach_of_adjacentEsc (le now : Nat) {data : List Nat}
    (hadj : hasAdjacentEsc data = true) (hne : ¬ stripChunk data = []) :
    onStdinData le now data = ⟨.detach, le⟩ := by
  have hfi : ¬(data = FOCUS_IN_SEQ ∨ data = FOCUS_OUT_SEQ) := by
    rintro (rfl | rfl) <;> exact absurd hadj (by decide)
  have hlen : ¬(stripChunk data).length = 0 := fun h0 =>
    hne (List.length_eq_zero.mp h0)
  unfold onStdinData
  rw [if_neg hfi]
  simp only [hlen, if_false]
  cases hcsi : CSI_U_DETACH_SEQS.any (fun seq => containsSub seq (stripChunk data)) with
  | true => simp [hcsi]
  | false =>
    cases hdet : data.any isDetachByte with
    | true => simp [hcsi, hdet]
    | false => simp [hcsi, hdet, hadj]

theorem onStdinData_single_escape_within (le now : Nat) (h : now - le < 500) :
    onStdinData le now [27] = ⟨.detach, le⟩ := by
  show (if now - le < 500 then (⟨.detach, le⟩ : StdinResult)
    else ⟨.forward (stripChunk [27]), now⟩) = ⟨.detach, le⟩
  rw [if_pos h]

theorem onStdinData_single_escape_outside (le now : Nat) (h : ¬ now - le < 500) :
    onStdinData le now [27] = ⟨.forward [27], now⟩ := by
  show (if now - le < 500 then (⟨.detach, le⟩ : StdinResult)
    else ⟨.forward (stripChunk [27]), now⟩) = ⟨.forward [27], now⟩
  rw [if_neg h]
  simp only [show stripChunk [27] = [27] from by decide]

/-- C4 (amended): while attached, (i) a chunk with two adjacent escape
bytes detaches provided the chunk is not entirely consumed by the
focus/terminal-response stripping; (ii) a lone escape chunk arriving at
least 500 ms after the previous lone escape is forwarded to the
subprocess as a normal escape keypress without detaching, and a second
lone escape chunk within 500 ms of it detaches without forwarding
anything further. -/
theorem c4_double_escape_rules (st : InteractState) (data : List Nat)
    (t0 t1 : Nat) (hatt : st.attached = true) :
    (hasAdjacentEsc data = true → ¬ stripChunk data = [] →
      (interactStep st t0 data).attached = false ∧
        (interactStep st t0 data).rawMode = false ∧
        (interactStep st t0 data).written = st.written) ∧
    (500 ≤ t0 - st.lastEsc →
      interactStep st t0 [27]
        = { st with written := st.written ++ [27], lastEsc := t0 } ∧
      (t1 - t0 < 500 →
        (interactStep (interactStep st t0 [27]) t1 [27]).attached = false ∧
        (interactStep (interactStep st t0 [27]) t1 [27]).rawMode = false ∧
        (interactStep (interactStep st t0 [27]) t1 [27]).written
          = st.written ++ [27])) := by
  constructor
  · intro hadj hne
    have hdet := onStdinData_detach_of_adjacentEsc st.lastEsc t0 hadj hne
    unfold interactStep
    rw [hatt, if_pos rfl, hdet]
    exact ⟨rfl, rfl, rfl⟩
  · intro hwin
    have h1 : interactStep st t0 [27]
        = { st with written := st.written ++ [27], lastEsc := t0 } := by
      have hf := onStdinData_single_escape_outside st.lastEsc t0 (by omega)
      simp [interactStep, hatt, hf]
    refine ⟨h1, fun hlt => ?_⟩
    rw [h1]
    have h2 : onStdinData t0 t1 [27] = ⟨.detach, t0⟩ :=
      onStdinData_single_escape_within t0 t1 hlt
    refine ⟨?_, ?_, ?_⟩ <;> simp [interactStep, hatt, h2]

/-- Witness for the amended C4 at concrete inputs: the chunk
ESC ESC detaches a session whose stripped chunk is non-empty, and the
two-lone-escape scenario first forwards a plain escape and then detaches. -/
theorem c4_double_escape_rules_witness :
    ((interactStep ⟨true, true, 0, []⟩ 600 [27, 27]).attached = false ∧
      (interactStep ⟨true, true, 0, []⟩ 600 [27, 27]).rawMode = false ∧
      (interactStep ⟨true, true, 0, []⟩ 600 [27, 27]).written = []) ∧
    (interactStep ⟨true, true, 0, []⟩ 600 [27]
        = ⟨true, true, 600, [27]⟩ ∧
      (interactStep (interactStep ⟨true, true, 0, []⟩ 600 [27]) 700 [27]).attached
          = false ∧
      (interactStep (interactStep ⟨true, true, 0, []⟩ 600 [27]) 700 [27]).rawMode
          = false ∧
      (interactStep (interactStep ⟨true, true, 0, []⟩ 600 [27]) 700 [27]).written
          = [27]) := by
  have hmain := c4_double_escape_rules ⟨true, true, 0, []⟩ [27, 27] 600 700 rfl
  have hesc := c4_double_escape_rules ⟨true, true, 0, []⟩ [27] 600 700 rfl
  refine ⟨hmain.1 (by decide) (by decide), ?_⟩
  obtain ⟨ha, hb⟩ := hesc.2 (by decide)
  exact ⟨ha, hb (by decide)⟩

/-! ## The session registry: getOrCreateManager (sdk-session.ts 383-419)

The `PersistentPtyManager` class itself lives in `persistent-pty.ts`; for
the registry logic only its identity and its `isDead()` flag matter, so a
manager is modelled as an id plus a dead flag.  The `ptyManagers` JS `Map`
is modelled as an association list without duplicate keys, with `Map.get`,
`Map.set` and `Map.delete` as `getAssoc`, `setAssoc` and `deleteAssoc`. -/

structure PersistentPtyManager where
  mid : Nat
  dead : Bool
deriving DecidableEq, Repr

def getAssoc {α : Type} : List (String × α) → String → Option α
  | [], _ => none
  | (k, v) :: rest, key => if k = key then some v else getAssoc rest key

def setAssoc {α : Type} : List (String × α) → String → α → List (String × α)
  | [], key, v => [(key, v)]
  | (k, w) :: rest, key, v =>
    if k = key then (key, v) :: rest else (k, w) :: setAssoc rest key v

def deleteAssoc {α : Type} (l : List (String × α)) (key : String) :
    List (String × α) :=
  l.filter (fun p => p.1 != key)

/-- getOrCreateManager (sdk-session.ts lines 383-419): look the tool up in
`ptyManagers`; when there is no manager or the existing one is dead, look
the adapter up (failing with the unknown-tool error when absent, before
anything is registered), then register a fresh manager in the map and
spawn it; otherwise return the live manager unchanged.  The result triple
is the call's outcome, the tool-to-manager map afterwards, and whether a
subprocess was spawned. -/
def getOrCreateManager (adapters : List String)
    (ptyManagers : List (String × PersistentPtyManager)) (tool : String)
    (freshId : Nat) :
    Except String PersistentPtyManager
      × List (String × PersistentPtyManager) × Bool :=
  match getAssoc ptyManagers tool with
  | some m =>
    if m.dead then
      if adapters.contains tool then
        (.ok ⟨freshId, false⟩, setAssoc ptyManagers tool ⟨freshId, false⟩, true)
      else
        (.error ("Unknown tool: " ++ tool), ptyManagers, false)
    else
      (.ok m, ptyManagers, false)
  | none =>
    if adapters.contains tool then
      (.ok ⟨freshId, false⟩, setAssoc ptyManagers tool ⟨freshId, false⟩, true)
    else
      (.error ("Unknown tool: " ++ tool), ptyManagers, false)

/-- The kill-and-delete step of sendToTool (sdk-session.ts lines 858-864):
a live manager for the active tool is killed silently and removed from
the map; a dead or absent entry is left alone. -/
def sendToToolKillStep (ptyManagers : List (String × PersistentPtyManager))
    (tool : String) : List (String × PersistentPtyManager) :=
  match getAssoc ptyManagers tool with
  | some m => if m.dead then ptyManagers else deleteAssoc ptyManagers tool
  | none => ptyManagers

theorem getAssoc_deleteAssoc {α : Type} (l : List (String × α)) (key : String) :
    getAssoc (deleteAssoc l key) key = none := by
  induction l with
  | nil => rfl
  | cons p rest ih =>
    by_cases h : p.1 = key
    · simpa [deleteAssoc, List.filter_cons, h] using ih
    · obtain ⟨k, v⟩ := p
      simp only at h
      simpa [deleteAssoc, List.filter_cons, h, getAssoc] using ih

theorem getAssoc_setAssoc {α : Type} (l : List (String × α)) (key k : String)
    (v : α) :
    getAssoc (setAssoc l key v) k
      = if key = k then some v else getAssoc l k := by
  induction l with
  | nil => simp [setAssoc, getAssoc]
  | cons p rest ih =>
    obtain ⟨k2, w⟩ := p
    by_cases h : k2 = key
    · subst h
      by_cases h2 : k2 = k <;> simp [setAssoc, getAssoc, h2]
    · by_cases h2 : k2 = k
      · subst h2
        have : ¬ key = k2 := fun he => h he.symm
        simp [setAssoc, getAssoc, h, this]
      · simp [setAssoc, getAssoc, h, h2, ih]

/-- C6: getOrCreateManager returns a live manager unchanged without
spawning; spawns, registers and returns a fresh manager when the entry is
absent or dead; and after the kill-and-delete step of sendToTool it always
spawns a fresh manager for that tool. -/
theorem c6_getOrCreateManager_reuse_or_spawn
    (adapters : List String)
    (ptyManagers : List (String × PersistentPtyManager))
    (tool : String) (freshId : Nat) :
    (∀ m, getAssoc ptyManagers tool = some m → m.dead = false →
      getOrCreateManager adapters ptyManagers tool freshId
        = (.ok m, ptyManagers, false)) ∧
    ((getAssoc ptyManagers tool = none ∨
        (∃ m, getAssoc ptyManagers tool = some m ∧ m.dead = true)) →
      adapters.contains tool = true →
      getOrCreateManager adapters ptyManagers tool freshId
        = (.ok ⟨freshId, false⟩, setAssoc ptyManagers tool ⟨freshId, false⟩,
            true)) ∧
    (∀ m, getAssoc ptyManagers tool = some m → m.dead = false →
      adapters.contains tool = true →
      getOrCreateManager adapters (sendToToolKillStep ptyManagers tool) tool
          freshId
        = (.ok ⟨freshId, false⟩,
            setAssoc (deleteAssoc ptyManagers tool) tool ⟨freshId, false⟩,
            true)) := by
  refine ⟨?_, ?_, ?_⟩
  · intro m hm hlive
    unfold getOrCreateManager
    rw [hm]
    simp [hlive]
  · intro hdead hA
    have hAm : tool ∈ adapters := by simpa using hA
    unfold getOrCreateManager
    rcases hdead with hnone | ⟨m, hm, hd⟩
    · rw [hnone]
      simp [hAm]
    · rw [hm]
      simp [hd, hAm]
  · intro m hm hlive hA
    have hAm : tool ∈ adapters := by simpa using hA
    have hkill : sendToToolKillStep ptyManagers tool
        = deleteAssoc ptyManagers tool := by
      unfold sendToToolKillStep
      rw [hm]
      simp [hlive]
    rw [hkill]
    unfold getOrCreateManager
    rw [getAssoc_deleteAssoc]
    simp [hAm]

/-- Witness for C6 on a concrete registry: a live manager is reused
unchanged, an empty registry spawns fresh, and after the silent kill of a
live session a fresh manager is spawned. -/
theorem c6_getOrCreateManager_reuse_or_spawn_witness :
    (getOrCreateManager ["claude", "gemini"] [("claude", ⟨1, false⟩)] "claude" 2
      = (.ok ⟨1, false⟩, [("claude", ⟨1, false⟩)], false)) ∧
    (getOrCreateManager ["claude", "gemini"] [] "claude" 2
      = (.ok ⟨2, false⟩, [("claude", ⟨2, false⟩)], true)) ∧
    (getOrCreateManager ["claude", "gemini"]
        (sendToToolKillStep [("claude", ⟨1, false⟩)] "claude") "claude" 2
      = (.ok ⟨2, false⟩, [("claude", ⟨2, false⟩)], true)) := by
  have h1 := (c6_getOrCreateManager_reuse_or_spawn ["claude", "gemini"]
    [("claude", ⟨1, false⟩)] "claude" 2).1 ⟨1, false⟩ (by decide) rfl
  have h2 := (c6_getOrCreateManager_reuse_or_spawn ["claude", "gemini"]
    [] "claude" 2).2.1 (Or.inl rfl) (by decide)
  have h3 := (c6_getOrCreateManager_reuse_or_spawn ["claude", "gemini"]
    [("claude", ⟨1, false⟩)] "claude" 2).2.2 ⟨1, false⟩ (by decide) rfl (by decide)
  exact ⟨h1, by simpa using h2, by simpa using h3⟩

/-- C8: for a tool id with no adapter (and, as in every reachable
registry state, no live manager entry), getOrCreateManager fails with the
unknown-tool error, the tool-to-manager map is returned unchanged and no
subprocess is spawned. -/
theorem c8_unknown_tool_fails_without_registering
    (adapters : List String)
    (ptyManagers : List (String × PersistentPtyManager))
    (tool : String) (freshId : Nat)
    (hA : adapters.contains tool = false)
    (hM : ∀ m, getAssoc ptyManagers tool = some m → m.dead = true) :
    getOrCreateManager adapters ptyManagers tool freshId
      = (.error ("Unknown tool: " ++ tool), ptyManagers, false) := by
  have hAm : tool ∉ adapters := by simpa using hA
  unfold getOrCreateManager
  cases hm : getAssoc ptyManagers tool with
  | none => simp [hAm]
  | some m =>
    have hd := hM m hm
    simp [hd, hAm]

/-- Witness for C8: an unregistered tool id fails and leaves the
registry untouched. -/
theorem c8_unknown_tool_fails_without_registering_witness :
    getOrCreateManager ["claude", "gemini"] [("claude", ⟨1, false⟩)] "codex" 2
      = (.error "Unknown tool: codex", [("claude", ⟨1, false⟩)], false) := by
  have h := c8_unknown_tool_fails_without_registering ["claude", "gemini"]
    [("claude", ⟨1, false⟩)] "codex" 2 (by decide)
    (fun m hm => by simp [getAssoc] at hm)
  simpa using h

/-- The tool-to-manager map after a getOrCreateManager call is either
unchanged or has the fresh manager registered under the requested tool,
and the latter only happens when the adapter exists. -/
theorem getOrCreateManager_map_cases (adapters : List String)
    (ptyManagers : List (String × PersistentPtyManager)) (tool : String)
    (freshId : Nat) :
    (getOrCreateManager adapters ptyManagers tool freshId).2.1 = ptyManagers ∨
    ((getOrCreateManager adapters ptyManagers tool freshId).2.1
        = setAssoc ptyManagers tool ⟨freshId, false⟩ ∧
      adapters.contains tool = true) := by
  unfold getOrCreateManager
  cases getAssoc ptyManagers tool with
  | none =>
    cases hA : adapters.contains tool with
    | true => exact Or.inr ⟨by simp, rfl⟩
    | false => exact Or.inl (by simp)
  | some m =>
    cases hd : m.dead with
    | true =>
      cases hA : adapters.contains tool with
      | true => exact Or.inr ⟨by simp [hd], rfl⟩
      | false => exact Or.inl (by simp [hd])
    | false => exact Or.inl (by simp [hd])

/-- Every key registered by getOrCreateManager has an adapter: the
registry invariant backing the side condition of the unknown-tool claim. -/
theorem getOrCreateManager_keys_have_adapters
    (adapters : List String)
    (ptyManagers : List (String × PersistentPtyManager))
    (tool : String) (freshId : Nat)
    (hinv : ∀ k m, getAssoc ptyManagers k = some m →
      adapters.contains k = true) :
    ∀ k m, getAssoc (getOrCreateManager adapters ptyManagers tool freshId).2.1 k
        = some m → adapters.contains k = true := by
  intro k m hk
  rcases getOrCreateManager_map_cases adapters ptyManagers tool freshId with
    hcase | ⟨hcase, hA⟩
  · rw [hcase] at hk
    exact hinv k m hk
  · rw [hcase, getAssoc_setAssoc] at hk
    by_cases he : tool = k
    · exact he ▸ hA
    · rw [if_neg he] at hk
      exact hinv k m hk

/-! ## Conversation history (sdk-session.ts lines 21-28, 828-909, 1096-1115) -/

/-- Message roles as in the Message interface (sdk-session.ts 21-25). -/
inductive Role
  | user
  | assistant
deriving DecidableEq, Repr

/-- A conversationHistory entry (sdk-session.ts lines 21-25); content is
kept as bytes like every other piece of text in this model. -/
structure Message where
  tool : String
  role : Role
  content : List Nat
deriving DecidableEq, Repr

/-- MAX_HISTORY_SIZE (sdk-session.ts line 28). -/
def MAX_HISTORY_SIZE : Nat := 1000

/-- The `while (length > MAX_HISTORY_SIZE) shift()` loop that follows
every push to conversationHistory, fuelled for structural recursion
(the list length always bounds the iteration count). -/
def enforceGo : Nat → List Message → List Message
  | 0, h => h
  | fuel + 1, h =>
    if h.length > MAX_HISTORY_SIZE then enforceGo fuel h.tail else h

def enforceHistoryLimit (h : List Message) : List Message :=
  enforceGo h.length h

/-- Push one message and enforce the size cap: the shared shape of the
three history-append sites (sdk-session.ts lines 838-847, 888-898,
1104-1112). -/
def recordMessage (h : List Message) (msg : Message) : List Message :=
  enforceHistoryLimit (h ++ [msg])

theorem enforceGo_eq_drop :
    ∀ fuel (h : List Message), h.length ≤ fuel →
      enforceGo fuel h = h.drop (h.length - MAX_HISTORY_SIZE) := by
  intro fuel
  induction fuel with
  | zero =>
    intro h hlen
    have hnil : h = [] := List.length_eq_zero.mp (by omega)
    subst hnil
    rfl
  | succ f ih =>
    intro h hlen
    unfold enforceGo
    by_cases hgt : h.length > MAX_HISTORY_SIZE
    · rw [if_pos hgt]
      cases h with
      | nil => simp [MAX_HISTORY_SIZE] at hgt
      | cons x xs =>
        have hx : (x :: xs).length - MAX_HISTORY_SIZE
            = (xs.length - MAX_HISTORY_SIZE) + 1 := by
          simp only [List.length_cons, MAX_HISTORY_SIZE] at hgt ⊢
          omega
        simp only [List.tail_cons]
        rw [ih xs (by simp only [List.length_cons] at hlen; omega), hx,
          List.drop_succ_cons]
    · rw [if_neg hgt]
      have h0 : h.length - MAX_HISTORY_SIZE = 0 := by omega
      rw [h0, List.drop_zero]

/-- C9: after any history-appending operation (user message, assistant
response, detached-buffer capture — all of which push and then run the
enforcement loop) the history holds at most MAX_HISTORY_SIZE = 1000
entries, and truncation removes the oldest entries first: the result is
exactly the newest suffix of the appended list. -/
theorem c9_history_capped_oldest_dropped (h : List Message) (msg : Message) :
    (recordMessage h msg).length ≤ MAX_HISTORY_SIZE ∧
      recordMessage h msg
        = (h ++ [msg]).drop ((h ++ [msg]).length - MAX_HISTORY_SIZE) := by
  have heq : recordMessage h msg
      = (h ++ [msg]).drop ((h ++ [msg]).length - MAX_HISTORY_SIZE) :=
    enforceGo_eq_drop _ _ (le_refl _)
  refine ⟨?_, heq⟩
  rw [heq]
  simp only [List.length_drop]
  omega

/-- The per-tool adapter interface as performDetach uses it: only
cleanResponse matters for the history capture. -/
structure Adapter where
  cleanResponse : List Nat → List Nat

/-- The buffer-capture block of performDetach (sdk-session.ts lines
1096-1115): the output buffer is snapshotted before detaching; when it is
non-empty, the adapter for the active tool exists, and the adapter-cleaned
response is non-empty and longer than 20 characters, the cleaned text is
pushed to the history as an assistant message with the cap enforced;
otherwise the history is left unchanged. -/
def performDetachHistory (history : List Message) (activeTool : String)
    (outputBuffer : List Nat) (adapterOpt : Option Adapter) : List Message :=
  if outputBuffer.length > 0 then
    match adapterOpt with
    | some adapter =>
      let cleanedResponse := adapter.cleanResponse outputBuffer
      if cleanedResponse.length > 0 ∧ cleanedResponse.length > 20 then
        recordMessage history ⟨activeTool, .assistant, cleanedResponse⟩
      else history
    | none => history
  else history

/-- C10: the detach path records the snapshotted buffer as an assistant
message exactly when the buffer is non-empty, the adapter exists and the
cleaned response is longer than 20 characters; in every other case the
history is unchanged. -/
theorem c10_detach_records_history_iff (history : List Message)
    (activeTool : String) (outputBuffer : List Nat)
    (adapterOpt : Option Adapter) :
    (∀ adapter, adapterOpt = some adapter → outputBuffer ≠ [] →
      (adapter.cleanResponse outputBuffer).length > 20 →
      performDetachHistory history activeTool outputBuffer adapterOpt
        = recordMessage history
            ⟨activeTool, .assistant, adapter.cleanResponse outputBuffer⟩) ∧
    ((outputBuffer = [] ∨ adapterOpt = none ∨
        (∃ adapter, adapterOpt = some adapter ∧
          ¬ (adapter.cleanResponse outputBuffer).length > 20)) →
      performDetachHistory history activeTool outputBuffer adapterOpt
        = history) := by
  constructor
  · intro adapter ha hbuf hlong
    unfold performDetachHistory
    rw [ha]
    have hlen : outputBuffer.length > 0 := by
      cases outputBuffer with
      | nil => exact absurd rfl hbuf
      | cons c rest => simp
    rw [if_pos hlen]
    simp only []
    rw [if_pos ⟨by omega, hlong⟩]
  · intro hcase
    unfold performDetachHistory
    rcases hcase with hbuf | hnone | ⟨adapter, ha, hshort⟩
    · subst hbuf
      simp
    · rw [hnone]
      by_cases hlen : outputBuffer.length > 0
      · rw [if_pos hlen]
      · rw [if_neg hlen]
    · rw [ha]
      by_cases hlen : outputBuffer.length > 0
      · rw [if_pos hlen]
        simp only []
        rw [if_neg (by intro hcontra; exact hshort hcontra.2)]
      · rw [if_neg hlen]

/-- Witness for C10: a 21-byte buffer under an identity-cleaning adapter
is recorded as an assistant message; an empty buffer leaves the history
unchanged. -/
theorem c10_detach_records_history_iff_witness :
    performDetachHistory [] "claude" (List.replicate 21 97)
        (some ⟨fun l => l⟩)
      = [⟨"claude", .assistant, List.replicate 21 97⟩] ∧
    performDetachHistory [⟨"claude", .user, [104]⟩] "claude" []
        (some ⟨fun l => l⟩)
      = [⟨"claude", .user, [104]⟩] := by
  constructor
  · have h := (c10_detach_records_history_iff [] "claude"
      (List.replicate 21 97) (some ⟨fun l => l⟩)).1 ⟨fun l => l⟩ rfl
      (by decide) (by decide)
    rw [h]
    decide
  · exact (c10_detach_records_history_iff _ _ _ _).2 (Or.inl rfl)

/-! ## Reattachment replay: enterInteractiveMode (sdk-session.ts 916-953) -/

/-- The PTY session states.  Modelled from the spec: sdk-session.ts uses
PtyState.DEAD, ATTACHED, PROCESSING of `persistent-pty.ts` (not under
src/); the full state set SPAWNING, READY, ATTACHED, DETACHED,
PROCESSING, DEAD is the spec's data model. -/
inductive PtyState
  | spawning
  | ready
  | attached
  | detached
  | processing
  | dead
deriving DecidableEq, Repr

/-- View of a manager as enterInteractiveMode reads it.  Modelled from
the spec: isUserAttached / getState / getOutputBuffer are getters of
`persistent-pty.ts` (not under src/) exposing the attached flag, the
session state and the accumulated output buffer. -/
structure MgrView where
  userAttached : Bool
  state : PtyState
  buffer : List Nat
deriving DecidableEq, Repr

/-- A write to the controlling terminal issued during attach. -/
inductive TermWrite
  | clearScreen
  | raw (bytes : List Nat)
deriving DecidableEq, Repr

/-- The reattach-replay logic of enterInteractiveMode (sdk-session.ts
lines 925-951): `isReattach` holds when the manager is not user-attached
and not dead; if additionally the buffer is non-empty, the screen is
cleared and the buffer is replayed with focus-report sequences stripped
(`buffer.split(FOCUS_IN_SEQ).join('').split(FOCUS_OUT_SEQ).join('')`);
only afterwards is the manager attached, which is what lets new
subprocess output flow to the terminal. -/
def enterInteractiveMode (mgr : MgrView) : List TermWrite × MgrView :=
  (if (mgr.userAttached = false ∧ mgr.state ≠ PtyState.dead)
      ∧ mgr.buffer.length > 0 then
    [TermWrite.clearScreen, TermWrite.raw (stripFocusPair mgr.buffer)]
  else [],
  { mgr with userAttached := true, state := PtyState.attached })

/-- C7: reattaching to a live, detached manager with a non-empty buffer
clears the screen and replays the focus-stripped buffer, in that order,
before the manager is marked attached (and hence before any new
subprocess output is shown). -/
theorem c7_reattach_replays_cleared_buffer (mgr : MgrView)
    (hdet : mgr.userAttached = false) (hlive : mgr.state ≠ PtyState.dead)
    (hbuf : mgr.buffer ≠ []) :
    (enterInteractiveMode mgr).1
      = [TermWrite.clearScreen, TermWrite.raw (stripFocusPair mgr.buffer)] ∧
      (enterInteractiveMode mgr).2.userAttached = true := by
  have hlen : mgr.buffer.length > 0 := by
    cases hb : mgr.buffer with
    | nil => exact absurd hb hbuf
    | cons c rest => simp [hb]
  unfold enterInteractiveMode
  rw [if_pos ⟨⟨hdet, hlive⟩, hlen⟩]
  exact ⟨rfl, rfl⟩

/-- Witness for C7, the spec's scenario: buffer "hello" on a detached
live manager is replayed after a clear-screen, and the manager ends up
attached. -/
theorem c7_reattach_replays_cleared_buffer_witness :
    (enterInteractiveMode ⟨false, .detached, [104, 101, 108, 108, 111]⟩).1
      = [TermWrite.clearScreen, TermWrite.raw [104, 101, 108, 108, 111]] ∧
      (enterInteractiveMode ⟨false, .detached, [104, 101, 108, 108, 111]⟩).2.userAttached
        = true := by
  have h := c7_reattach_replays_cleared_buffer
    ⟨false, .detached, [104, 101, 108, 108, 111]⟩ rfl (by decide) (by decide)
  have hs : stripFocusPair [104, 101, 108, 108, 111]
      = [104, 101, 108, 108, 111] := by decide
  exact ⟨by rw [h.1, hs], h.2⟩

/-! ## C5: at most one attached session across the whole registry

Modelled from the spec: attach() and detach() of `persistent-pty.ts`
(not under src/) set the manager's user-attached flag.  The control flow
is that of sdk-session.ts: the sequential command loop is the only caller
of enterInteractiveMode (lines 916-953) and of the registry operations,
the interactive session owns stdin while it runs, and its promise
resolves only inside performDetach after manager.detach()
(lines 1082-1121).  Events therefore either run with no foreground
session (command-loop events) or are stdin chunks delivered to the single
foreground session. -/

/-- Registry-wide state: the attached flag of every live manager, the
foreground interactive session (none while the command loop has control),
and the escape-timing variable of the running interactive session. -/
structure SysState where
  mgrs : List (String × Bool)
  fg : Option String
  lastEsc : Nat

/-- The events of the single-threaded event loop: entering interactive
mode for a tool, a stdin chunk while a session is foreground, a detached
spawn, a sendToTool silent kill, and an explicit kill. -/
inductive SysEv
  | attach (tool : String)
  | stdin (now : Nat) (data : List Nat)
  | spawnDetached (tool : String)
  | send (tool : String)
  | kill (tool : String)

/-- One event-loop step.  Command-loop events fire only when no session
is foreground; a stdin chunk is classified by onStdinData and performs
the detach — marking the manager detached and handing control back —
exactly on a detach trigger. -/
def sysStep (s : SysState) (ev : SysEv) : SysState :=
  match ev with
  | .attach tool =>
    match s.fg with
    | none => { s with mgrs := setAssoc s.mgrs tool true, fg := some tool }
    | some _ => s
  | .stdin now data =>
    match s.fg with
    | some tool =>
      match onStdinData s.lastEsc now data with
      | ⟨.detach, e⟩ =>
        { s with mgrs := setAssoc s.mgrs tool false, fg := none, lastEsc := e }
      | ⟨.forward _, e⟩ => { s with lastEsc := e }
      | ⟨.drop, e⟩ => { s with lastEsc := e }
    | none => s
  | .spawnDetached tool =>
    match s.fg with
    | none => { s with mgrs := setAssoc s.mgrs tool false }
    | some _ => s
  | .send tool =>
    match s.fg with
    | none => { s with mgrs := deleteAssoc s.mgrs tool }
    | some _ => s
  | .kill tool =>
    match s.fg with
    | none => { s with mgrs := deleteAssoc s.mgrs tool }
    | some _ => s

def initSys : SysState := ⟨[], none, 0⟩

/-- States reachable from the fresh registry by event-loop steps. -/
inductive Reachable : SysState → Prop
  | init : Reachable initSys
  | step {s : SysState} (ev : SysEv) : Reachable s → Reachable (sysStep s ev)

/-- Number of managers in the registry whose attached flag is set. -/
def attachedCount (s : SysState) : Nat :=
  (s.mgrs.filter (fun p => p.2)).length

/-- The inductive invariant: an attached manager is exactly the
foreground session, and registry keys are unique. -/
def SysInv (s : SysState) : Prop :=
  (∀ p ∈ s.mgrs, p.2 = true → s.fg = some p.1) ∧
    (s.mgrs.map Prod.fst).Nodup

theorem setAssoc_cons_eq {α : Type} (k : String) (w v : α)
    (rest : List (String × α)) :
    setAssoc ((k, w) :: rest) k v = (k, v) :: rest := by
  simp [setAssoc]

theorem setAssoc_cons_ne {α : Type} {k key : String} (hk : ¬ k = key)
    (w v : α) (rest : List (String × α)) :
    setAssoc ((k, w) :: rest) key v = (k, w) :: setAssoc rest key v := by
  simp [setAssoc, hk]

theorem mem_setAssoc_strong {α : Type} {l : List (String × α)} {key : String}
    {v : α} {p : String × α} (hnd : (l.map Prod.fst).Nodup)
    (hp : p ∈ setAssoc l key v) : p = (key, v) ∨ (p ∈ l ∧ p.1 ≠ key) := by
  induction l with
  | nil =>
    left
    simpa [setAssoc] using hp
  | cons q rest ih =>
    obtain ⟨qk, qv⟩ := q
    simp only [List.map_cons, List.nodup_cons] at hnd
    obtain ⟨hq1, hq2⟩ := hnd
    by_cases hk : qk = key
    · subst hk
      rw [setAssoc_cons_eq] at hp
      rcases List.mem_cons.mp hp with rfl | hpr
      · left
        rfl
      · right
        refine ⟨List.mem_cons_of_mem _ hpr, fun hpk => ?_⟩
        exact hq1 (hpk ▸ List.mem_map_of_mem Prod.fst hpr)
    · rw [setAssoc_cons_ne hk] at hp
      rcases List.mem_cons.mp hp with rfl | hpr
      · right
        exact ⟨List.mem_cons_self _ _, hk⟩
      · rcases ih hq2 hpr with h | ⟨hmem, hne⟩
        · left
          exact h
        · right
          exact ⟨List.mem_cons_of_mem _ hmem, hne⟩

theorem keys_setAssoc {α : Type} {l : List (String × α)} {key x : String}
    {v : α} (hx : x ∈ (setAssoc l key v).map Prod.fst) :
    x = key ∨ x ∈ l.map Prod.fst := by
  induction l with
  | nil =>
    left
    simpa [setAssoc] using hx
  | cons q rest ih =>
    obtain ⟨qk, qv⟩ := q
    by_cases hk : qk = key
    · subst hk
      rw [setAssoc_cons_eq] at hx
      simp only [List.map_cons, List.mem_cons] at hx
      rcases hx with rfl | hx
      · left
        rfl
      · right
        simp [hx]
    · rw [setAssoc_cons_ne hk] at hx
      simp only [List.map_cons, List.mem_cons] at hx
      rcases hx with rfl | hx
      · right
        simp
      · rcases ih hx with h | h
        · left
          exact h
        · right
          simp [h]

theorem nodup_setAssoc {α : Type} {l : List (String × α)} {key : String}
    {v : α} (hnd : (l.map Prod.fst).Nodup) :
    ((setAssoc l key v).map Prod.fst).Nodup := by
  induction l with
  | nil => simp [setAssoc]
  | cons q rest ih =>
    obtain ⟨qk, qv⟩ := q
    simp only [List.map_cons, List.nodup_cons] at hnd
    obtain ⟨hq1, hq2⟩ := hnd
    by_cases hk : qk = key
    · subst hk
      rw [setAssoc_cons_eq]
      simp only [List.map_cons, List.nodup_cons]
      exact ⟨hq1, hq2⟩
    · rw [setAssoc_cons_ne hk]
      simp only [List.map_cons, List.nodup_cons]
      refine ⟨fun hmem => ?_, ih hq2⟩
      rcases keys_setAssoc hmem with h | h
      · exact hk h
      · exact hq1 h

theorem nodup_deleteAssoc {α : Type} {l : List (String × α)} {key : String}
    (hnd : (l.map Prod.fst).Nodup) :
    ((deleteAssoc l key).map Prod.fst).Nodup :=
  hnd.sublist ((List.filter_sublist l).map Prod.fst)

theorem filter_attached_le_one (t0 : String) {l : List (String × Bool)}
    (hnd : (l.map Prod.fst).Nodup)
    (hall : ∀ p ∈ l, p.2 = true → p.1 = t0) :
    (l.filter (fun p => p.2)).length ≤ 1 := by
  induction l with
  | nil => simp
  | cons p rest ih =>
    simp only [List.map_cons, List.nodup_cons] at hnd
    obtain ⟨hp1, hp2⟩ := hnd
    cases hp : p.2 with
    | false =>
      simp only [List.filter_cons, hp, if_neg]
      simpa using ih hp2 (fun q hq h2 => hall q (List.mem_cons_of_mem _ hq) h2)
    | true =>
      have hpk : p.1 = t0 := hall p (List.mem_cons_self _ _) hp
      have hrest : rest.filter (fun q => q.2) = [] := by
        rw [List.filter_eq_nil_iff]
        intro q hq hq2
        have hqk : q.1 = t0 := hall q (List.mem_cons_of_mem _ hq)
          (by simpa using hq2)
        exact hp1 ((hpk.trans hqk.symm) ▸ List.mem_map_of_mem Prod.fst hq)
      simp [List.filter_cons, hp, hrest]

theorem attachedCount_le_one_of_inv {s : SysState} (hinv : SysInv s) :
    attachedCount s ≤ 1 := by
  obtain ⟨h1, h2⟩ := hinv
  cases hfg : s.fg with
  | none =>
    have hfil : s.mgrs.filter (fun p => p.2) = [] := by
      rw [List.filter_eq_nil_iff]
      intro p hp hp2
      have hcontra := h1 p hp (by simpa using hp2)
      rw [hfg] at hcontra
      exact absurd hcontra (by simp)
    simp [attachedCount, hfil]
  | some t0 =>
    refine filter_attached_le_one t0 h2 (fun p hp hp2 => ?_)
    have hcontra := h1 p hp hp2
    rw [hfg] at hcontra
    exact (Option.some_inj.mp hcontra).symm

theorem sysStep_inv {s : SysState} (hinv : SysInv s) (ev : SysEv) :
    SysInv (sysStep s ev) := by
  obtain ⟨h1, h2⟩ := hinv
  cases ev with
  | attach tool =>
    cases hfg : s.fg with
    | some t =>
      have hst : sysStep s (SysEv.attach tool) = s := by simp [sysStep, hfg]
      rw [hst]
      exact ⟨h1, h2⟩
    | none =>
      have hst : sysStep s (SysEv.attach tool)
          = { s with mgrs := setAssoc s.mgrs tool true, fg := some tool } := by
        simp [sysStep, hfg]
      rw [hst]
      refine ⟨fun p hp hp2 => ?_, nodup_setAssoc h2⟩
      rcases mem_setAssoc_strong h2 hp with rfl | ⟨hpl, _⟩
      · rfl
      · have hcontra := h1 p hpl hp2
        rw [hfg] at hcontra
        exact absurd hcontra (by simp)
  | stdin now data =>
    cases hfg : s.fg with
    | none =>
      have hst : sysStep s (SysEv.stdin now data) = s := by simp [sysStep, hfg]
      rw [hst]
      exact ⟨h1, h2⟩
    | some tool =>
      cases hres : onStdinData s.lastEsc now data with
      | mk act e =>
        cases act with
        | detach =>
          have hst : sysStep s (SysEv.stdin now data)
              = { s with
                  mgrs := setAssoc s.mgrs tool false
                  fg := none
                  lastEsc := e } := by
            simp [sysStep, hfg, hres]
          rw [hst]
          refine ⟨fun p hp hp2 => ?_, nodup_setAssoc h2⟩
          rcases mem_setAssoc_strong h2 hp with rfl | ⟨hpl, hpne⟩
          · exact absurd hp2 (by simp)
          · have hcontra := h1 p hpl hp2
            rw [hfg] at hcontra
            exact absurd (Option.some_inj.mp hcontra).symm hpne
        | forward w =>
          have hst : sysStep s (SysEv.stdin now data)
              = { s with lastEsc := e } := by
            simp [sysStep, hfg, hres]
          rw [hst]
          exact ⟨fun p hp hp2 => h1 p hp hp2, h2⟩
        | drop =>
          have hst : sysStep s (SysEv.stdin now data)
              = { s with lastEsc := e } := by
            simp [sysStep, hfg, hres]
          rw [hst]
          exact ⟨fun p hp hp2 => h1 p hp hp2, h2⟩
  | spawnDetached tool =>
    cases hfg : s.fg with
    | some t =>
      have hst : sysStep s (SysEv.spawnDetached tool) = s := by
        simp [sysStep, hfg]
      rw [hst]
      exact ⟨h1, h2⟩
    | none =>
      have hst : sysStep s (SysEv.spawnDetached tool)
          = { s with mgrs := setAssoc s.mgrs tool false } := by
        simp [sysStep, hfg]
      rw [hst]
      refine ⟨fun p hp hp2 => ?_, nodup_setAssoc h2⟩
      rcases mem_setAssoc_strong h2 hp with rfl | ⟨hpl, _⟩
      · exact absurd hp2 (by simp)
      · have hcontra := h1 p hpl hp2
        rw [hfg] at hcontra
        exact absurd hcontra (by simp)
  | send tool =>
    cases hfg : s.fg with
    | some t =>
      have hst : sysStep s (SysEv.send tool) = s := by simp [sysStep, hfg]
      rw [hst]
      exact ⟨h1, h2⟩
    | none =>
      have hst : sysStep s (SysEv.send tool)
          = { s with mgrs := deleteAssoc s.mgrs tool } := by
        simp [sysStep, hfg]
      rw [hst]
      refine ⟨fun p hp hp2 => ?_, nodup_deleteAssoc h2⟩
      have hpl : p ∈ s.mgrs := List.mem_of_mem_filter hp
      have hcontra := h1 p hpl hp2
      rw [hfg] at hcontra
      exact absurd hcontra (by simp)
  | kill tool =>
    cases hfg : s.fg with
    | some t =>
      have hst : sysStep s (SysEv.kill tool) = s := by simp [sysStep, hfg]
      rw [hst]
      exact ⟨h1, h2⟩
    | none =>
      have hst : sysStep s (SysEv.kill tool)
          = { s with mgrs := deleteAssoc s.mgrs tool } := by
        simp [sysStep, hfg]
      rw [hst]
      refine ⟨fun p hp hp2 => ?_, nodup_deleteAssoc h2⟩
      have hpl : p ∈ s.mgrs := List.mem_of_mem_filter hp
      have hcontra := h1 p hpl hp2
      rw [hfg] at hcontra
      exact absurd hcontra (by simp)

theorem reachable_inv {s : SysState} (h : Reachable s) : SysInv s := by
  induction h with
  | init => exact ⟨fun p hp => absurd hp (List.not_mem_nil p), List.nodup_nil⟩
  | step ev hs ih => exact sysStep_inv ih ev

/-- C5: in every state reachable by the event loop — attaches from the
command loop, stdin chunks to the foreground session (whose detach
triggers mark the manager detached and return control), detached spawns,
silent kills and explicit kills — at most one manager in the whole
registry is attached. -/
theorem c5_at_most_one_attached (s : SysState) (h : Reachable s) :
    attachedCount s ≤ 1 :=
  attachedCount_le_one_of_inv (reachable_inv h)

/-- Witness for C5: after attaching the claude session from the fresh
registry, the attached count is bounded by one. -/
theorem c5_at_most_one_attached_witness :
    attachedCount (sysStep initSys (SysEv.attach "claude")) ≤ 1 :=
  c5_at_most_one_attached _ (Reachable.step (SysEv.attach "claude") Reachable.init)

end AicSession